import Mathlib

/-!
Verification of the identicon repository: a shallow embedding of its four
source files (`base64.rs`, `color.rs`, `lib.rs`, `bin/cli.rs`) together with
theorems settling the specification's claims.  Machine integers (`u8`, `u16`,
`u32`, `usize`) are modelled as `Nat` (no operation below overflows its Rust
width except where noted explicitly); `f32` arithmetic is modelled as exact
rational arithmetic over `ℚ`; Rust `Result` is modelled as `Except`.
-/

/-- The 64-entry standard alphabet table `SIXBIT2CHAR` from `base64.rs`. -/
def Base64.SIXBIT2CHAR : List Char :=
  ['A', 'B', 'C', 'D', 'E', 'F', 'G', 'H', 'I', 'J', 'K', 'L', 'M', 'N', 'O',
   'P', 'Q', 'R', 'S', 'T', 'U', 'V', 'W', 'X', 'Y', 'Z', 'a', 'b', 'c', 'd',
   'e', 'f', 'g', 'h', 'i', 'j', 'k', 'l', 'm', 'n', 'o', 'p', 'q', 'r', 's',
   't', 'u', 'v', 'w', 'x', 'y', 'z', '0', '1', '2', '3', '4', '5', '6', '7',
   '8', '9', '+', '/']

/-- The `PADDING` constant from `base64.rs`. -/
def Base64.PADDING : Char := '='

/-- `SIXBIT2CHAR[usize::from(sixbit)]`: the table lookup.  In the source the
index is always `< 64`; the default is irrelevant there. -/
def Base64.sixbitChar (n : Nat) : Char := SIXBIT2CHAR.getD n 'A'

/-- The `RemainderBits` state enum from `base64.rs`. -/
inductive Base64.RemainderBits
  | Zero
  | Two
  | Four

/-- The encoding loop of `encode` in `base64.rs`: the `while let` loop over
the input bytes followed by the final `match num_bits` flush.  The first
argument is `remainder`, the second `num_bits`. -/
def Base64.encodeLoop : Nat → RemainderBits → List Nat → List Char
  | _, .Zero, [] => []
  | remainder, .Two, [] => [sixbitChar remainder, PADDING, PADDING]
  | remainder, .Four, [] => [sixbitChar remainder, PADDING]
  | _, .Zero, b :: bs =>
      sixbitChar ((b &&& 0xfc) >>> 2) :: encodeLoop ((b &&& 0x03) <<< 4) .Two bs
  | remainder, .Two, b :: bs =>
      sixbitChar (remainder ||| ((b &&& 0xf0) >>> 4)) ::
        encodeLoop ((b &&& 0x0f) <<< 2) .Four bs
  | remainder, .Four, b :: bs =>
      sixbitChar (remainder ||| ((b &&& 0xc0) >>> 6)) :: sixbitChar (b &&& 0x3f) ::
        encodeLoop 0 .Zero bs

/-- `encode` from `base64.rs`: starts with `remainder = 0`, state `Zero`. -/
def Base64.encode (bytes : List Nat) : List Char := encodeLoop 0 .Zero bytes

/-- Reverse lookup in the alphabet table, used only by the decoder below. -/
def Base64.char2sixbit (c : Char) : Option Nat := SIXBIT2CHAR.findIdx? (· == c)

/-- Modelled from the spec: the repository contains no decoder ("No decoder is
required by this system; only the encode direction is part of the core"), so
this is a conformant RFC 4648 standard-alphabet base64 decoder, written from
the spec's description of the encoding (4-character groups of 6-bit symbols,
`=` padding allowed only at the very end, one pad for a 2-byte tail, two pads
for a 1-byte tail). -/
def Base64.decodeStdBase64 : List Char → Option (List Nat)
  | [] => some []
  | c1 :: c2 :: c3 :: c4 :: rest =>
    match char2sixbit c1, char2sixbit c2 with
    | some a, some b =>
      if c3 = PADDING then
        if c4 = PADDING ∧ rest = [] then
          some [(a <<< 2) ||| (b >>> 4)]
        else none
      else
        match char2sixbit c3 with
        | some c =>
          if c4 = PADDING then
            if rest = [] then
              some [(a <<< 2) ||| (b >>> 4), ((b &&& 0x0f) <<< 4) ||| (c >>> 2)]
            else none
          else
            match char2sixbit c4 with
            | some d =>
              (decodeStdBase64 rest).map
                (fun tl => ((a <<< 2) ||| (b >>> 4)) ::
                  (((b &&& 0x0f) <<< 4) ||| (c >>> 2)) ::
                  (((c &&& 0x03) <<< 6) ||| d) :: tl)
            | none => none
        | none => none
    | _, _ => none
  | _ => none

/-- The `NUM_SQUARES` constant from `lib.rs`. -/
def Identicon.NUM_SQUARES : Nat := 7

/-- The nibble sequence built in `Identicon::paint`: every digest byte split
into its two 4-bit nibbles, high nibble first, truncated to the mask length
(`paints.len() = 15`). -/
def Identicon.nibbles (hash : List Nat) : List Nat :=
  (hash.flatMap fun b => [(b &&& 0xf0) >>> 4, b &&& 0x0f]).take 15

/-- The cell-index computation inside the loop of `Identicon::paint`:
`col = 2 - i / num_rows`, `row = i % num_rows`, `idx = row * num_cols + col`,
with `num_cols = NUM_SQUARES / 2 = 3` and `num_rows = NUM_SQUARES - 2 = 5`. -/
def Identicon.maskIndex (i : Nat) : Nat :=
  let num_cols := NUM_SQUARES / 2
  let num_rows := NUM_SQUARES - 2
  let col := 2 - i / num_rows
  let row := i % num_rows
  row * num_cols + col

/-- `Identicon::paint` from `lib.rs`: the mask starts all-`false`
(`[false; 15]`) and each of the first 15 nibbles sets one cell. -/
def Identicon.paint (hash : List Nat) : List Bool :=
  (nibbles hash).enum.foldl
    (fun paints p => paints.set (maskIndex p.1) (p.2 % 2 == 0))
    (List.replicate 15 false)

/-- `HUE_MAX` from `color.rs` (`u16`, only ever used through the exact
conversion `f32::from`, so modelled directly as a rational). -/
def color.HUE_MAX : ℚ := 360

/-- `SAT_MAX` from `color.rs`. -/
def color.SAT_MAX : ℚ := 100

/-- `LUM_MAX` from `color.rs`. -/
def color.LUM_MAX : ℚ := 100

/-- `RGB_MAX` from `color.rs`. -/
def color.RGB_MAX : ℚ := 255

/-- The `RGB` struct from `color.rs` (wraps three `u8` channels). -/
structure color.RGB where
  red : Nat
  green : Nat
  blue : Nat
deriving DecidableEq

/-- The `HSL` struct from `color.rs`. -/
structure color.HSL where
  hue : ℚ
  sat : ℚ
  lum : ℚ
deriving DecidableEq

/-- The `Error` enum from `color.rs`: its single `HSLOutOfBounds` variant
carries the field name, the offending value and the maximum. -/
inductive color.Error
  | HSLOutOfBounds (name : String) (val : ℚ) (max : ℚ)
deriving DecidableEq

/-- `HSL::new` from `color.rs`: the three range checks, in order. -/
def color.HSL.new (hue sat lum : ℚ) : Except color.Error color.HSL :=
  if hue < 0 ∨ hue > color.HUE_MAX then
    .error (.HSLOutOfBounds "hue" hue color.HUE_MAX)
  else if sat < 0 ∨ sat > color.SAT_MAX then
    .error (.HSLOutOfBounds "sat" sat color.SAT_MAX)
  else if lum < 0 ∨ lum > color.LUM_MAX then
    .error (.HSLOutOfBounds "lum" lum color.LUM_MAX)
  else
    .ok ⟨hue, sat, lum⟩

/-- `HSL::compute_rgb` from `color.rs`: wrap the offset hue into `[0,1]`,
then the six-region piecewise formula. -/
def color.HSL.compute_rgb (c m h : ℚ) : ℚ :=
  let h := if h < 0 then h + 1 else if h > 1 then h - 1 else h
  if h < 1 / 6 then 6 * c * h + m
  else if h < 1 / 2 then c + m
  else if h < 2 / 3 then c * (4 - 6 * h) + m
  else m

/-- The three normalized channel values computed inside `HSL::as_rgb`
(`let r = ...; let g = ...; let b = ...`), before scaling by `RGB_MAX`. -/
def color.HSL.channels (hsl : color.HSL) : ℚ × ℚ × ℚ :=
  let hue := hsl.hue / color.HUE_MAX
  let sat := hsl.sat / color.SAT_MAX
  let lum := hsl.lum / color.LUM_MAX
  let s := if lum < 1 / 2 then lum else 1 - lum
  let c := 2 * s * sat
  let m := lum - c / 2
  (color.HSL.compute_rgb c m (hue + 1 / 3),
   color.HSL.compute_rgb c m hue,
   color.HSL.compute_rgb c m (hue - 1 / 3))

/-- Rust's `f32 as u8` applied to an already-rounded value: saturating
conversion onto the byte range. -/
def floatToByte (q : ℚ) : Nat := (min 255 (max 0 (round q))).toNat

/-- `HSL::as_rgb` from `color.rs`: scale each channel by `RGB_MAX`, round to
nearest, convert to a byte. -/
def color.HSL.as_rgb (hsl : color.HSL) : color.RGB :=
  let ch := hsl.channels
  ⟨floatToByte (ch.1 * color.RGB_MAX),
   floatToByte (ch.2.1 * color.RGB_MAX),
   floatToByte (ch.2.2 * color.RGB_MAX)⟩

/-- `SAT_MIN` from `lib.rs` (`u16`, used only through `f32::from`). -/
def Identicon.SAT_MIN : ℚ := 45

/-- `SAT_MAX` from `lib.rs`. -/
def Identicon.SAT_MAX : ℚ := 65

/-- `LUM_MIN` from `lib.rs`. -/
def Identicon.LUM_MIN : ℚ := 55

/-- `LUM_MAX` from `lib.rs`. -/
def Identicon.LUM_MAX : ℚ := 75

/-- `Identicon::map` from `lib.rs`: linearly map `val` in `[vmin, vmax]` to
`[dmin, dmax]`. -/
def Identicon.map (val vmin vmax dmin dmax : ℚ) : ℚ :=
  dmin + (val - vmin) * (dmax - dmin) / (vmax - vmin)

/-- The hue/sat/lum triple derived inside `Identicon::compute_fg`:
`hueRaw = (hash[12] & 0x0f) << 8 | hash[13]`, `satRaw = hash[14]`,
`lumRaw = hash[15]`, each linearly remapped. -/
def Identicon.fgHSL (hash : List Nat) : ℚ × ℚ × ℚ :=
  let h1 := ((hash.getD 12 0) &&& 0x0f) <<< 8
  let h2 := hash.getD 13 0
  let hue := h1 ||| h2
  let sat := hash.getD 14 0
  let lum := hash.getD 15 0
  (Identicon.map (hue : ℚ) 0 4095 0 color.HUE_MAX,
   Identicon.map (sat : ℚ) 0 255 Identicon.SAT_MAX Identicon.SAT_MIN,
   Identicon.map (lum : ℚ) 0 255 Identicon.LUM_MAX Identicon.LUM_MIN)

/-- `Identicon::compute_fg` from `lib.rs`:
`Ok(color::HSL::new(hue, sat, lum)?.as_rgb())`. -/
def Identicon.compute_fg (hash : List Nat) : Except color.Error color.RGB :=
  let hsl := Identicon.fgHSL hash
  Except.map color.HSL.as_rgb (color.HSL.new hsl.1 hsl.2.1 hsl.2.2)

/-- `Cli::size` validation from `bin/cli.rs`:
`value_parser = clap::value_parser!(u32).range(..613566757)` — accepts
exactly the `u32` values strictly below `613566757`; the range has no lower
bound beyond the `u32` minimum `0`. -/
def Cli.sizeAccepted (n : Nat) : Bool := n < 613566757

/-- The `Identicon` struct from `lib.rs`: a paint mask, the square size in
pixels, and the foreground and background colors. -/
structure Identicon where
  paints : List Bool
  size : Nat
  foreground : color.RGB
  background : color.RGB

/-- `RgbImage::put_pixel`: pointwise update of a pixel buffer, modelled as a
function from coordinates to colors. -/
def putPixel (img : Nat → Nat → color.RGB) (x y : Nat) (p : color.RGB) :
    Nat → Nat → color.RGB :=
  fun a b => if a = x ∧ b = y then p else img a b

/-- `Identicon::image` from `lib.rs`: a `size*7` square buffer pre-filled with
the background (`RgbImage::from_pixel`), then for each mask entry `(i, paint)`
with `row = 1 + i / (7/2)`, `col = 1 + i % (7/2)`, every pixel of the block
and its horizontal mirror `(size-1-x, y)` is painted with the foreground when
`paint` holds. -/
def Identicon.image (ic : Identicon) : Nat → Nat → color.RGB :=
  let size := ic.size * Identicon.NUM_SQUARES
  let num_center_cols := Identicon.NUM_SQUARES / 2
  ic.paints.enum.foldl
    (fun img p =>
      (List.range' ((1 + p.1 % num_center_cols) * ic.size) ic.size).foldl
        (fun im x =>
          (List.range' ((1 + p.1 / num_center_cols) * ic.size) ic.size).foldl
            (fun im2 y =>
              if p.2 then
                putPixel (putPixel im2 x y ic.foreground) (size - 1 - x) y
                  ic.foreground
              else im2) im) img)
    (fun _ _ => ic.background)

/-- Table characters are never the padding character. -/
theorem Base64.sixbitChar_ne_padding (n : Nat) : sixbitChar n ≠ PADDING := by
  by_cases h : n < 64
  · have hb : ∀ m, m < 64 → sixbitChar m ≠ PADDING := by decide
    exact hb n h
  · have hlen : SIXBIT2CHAR.length ≤ n := by
      simp only [SIXBIT2CHAR, List.length]
      omega
    rw [sixbitChar, List.getD_eq_default _ _ hlen]
    decide

/-- Lengths of `encodeLoop` output from each of the three states. -/
theorem Base64.encodeLoop_length (bs : List Nat) : ∀ r r' r'',
    (encodeLoop r .Zero bs).length = 4 * ((bs.length + 2) / 3) ∧
    (encodeLoop r' .Two bs).length = 3 + 4 * (bs.length / 3) ∧
    (encodeLoop r'' .Four bs).length = 2 + 4 * ((bs.length + 1) / 3) := by
  induction bs with
  | nil => intro r r' r''; simp [encodeLoop]
  | cons b bs ih =>
    intro r r' r''
    refine ⟨?_, ?_, ?_⟩
    · have h := (ih 0 ((b &&& 0x03) <<< 4) 0).2.1
      simp only [encodeLoop, List.length_cons, h]
      omega
    · have h := (ih 0 0 ((b &&& 0x0f) <<< 2)).2.2
      simp only [encodeLoop, List.length_cons, h]
      omega
    · have h := (ih 0 0 0).1
      simp only [encodeLoop, List.length_cons, h]
      omega

/-- Padding-character counts of `encodeLoop` output from each state. -/
theorem Base64.encodeLoop_count (bs : List Nat) : ∀ r r' r'',
    (encodeLoop r .Zero bs).count PADDING =
      (if bs.length % 3 = 0 then 0 else if bs.length % 3 = 2 then 1 else 2) ∧
    (encodeLoop r' .Two bs).count PADDING =
      (if bs.length % 3 = 0 then 2 else if bs.length % 3 = 1 then 1 else 0) ∧
    (encodeLoop r'' .Four bs).count PADDING =
      (if bs.length % 3 = 0 then 1 else if bs.length % 3 = 1 then 0 else 2) := by
  induction bs with
  | nil =>
    intro r r' r''
    simp [encodeLoop, List.count_cons, sixbitChar_ne_padding]
  | cons b bs ih =>
    intro r r' r''
    have h3 : bs.length % 3 = 0 ∨ bs.length % 3 = 1 ∨ bs.length % 3 = 2 := by omega
    refine ⟨?_, ?_, ?_⟩
    · have h := (ih 0 ((b &&& 0x03) <<< 4) 0).2.1
      simp only [encodeLoop, List.count_cons, List.length_cons, h]
      rcases h3 with h0 | h0 | h0 <;>
        · have e : (bs.length + 1) % 3 = (bs.length % 3 + 1) % 3 := by omega
          simp [h0, e, sixbitChar_ne_padding]
    · have h := (ih 0 0 ((b &&& 0x0f) <<< 2)).2.2
      simp only [encodeLoop, List.count_cons, List.length_cons, h]
      rcases h3 with h0 | h0 | h0 <;>
        · have e : (bs.length + 1) % 3 = (bs.length % 3 + 1) % 3 := by omega
          simp [h0, e, sixbitChar_ne_padding]
    · have h := (ih 0 0 0).1
      simp only [encodeLoop, List.count_cons, List.length_cons, h]
      rcases h3 with h0 | h0 | h0 <;>
        · have e : (bs.length + 1) % 3 = (bs.length % 3 + 1) % 3 := by omega
          simp [h0, e, sixbitChar_ne_padding]

set_option maxRecDepth 4000 in
/-- Looking a table character back up returns its index. -/
theorem Base64.char2sixbit_sixbitChar : ∀ n, n < 64 → char2sixbit (sixbitChar n) = some n := by
  decide

/-! Arithmetic readings of the bit manipulations of `encode`. -/

theorem Base64.shl2 (a : Nat) : a <<< 2 = a * 4 := by rw [Nat.shiftLeft_eq]

theorem Base64.shl4 (a : Nat) : a <<< 4 = a * 16 := by rw [Nat.shiftLeft_eq]

theorem Base64.shl6 (a : Nat) : a <<< 6 = a * 64 := by rw [Nat.shiftLeft_eq]

theorem Base64.shr2 (a : Nat) : a >>> 2 = a / 4 := by rw [Nat.shiftRight_eq_div_pow]

theorem Base64.shr4 (a : Nat) : a >>> 4 = a / 16 := by rw [Nat.shiftRight_eq_div_pow]

theorem Base64.shr6 (a : Nat) : a >>> 6 = a / 64 := by rw [Nat.shiftRight_eq_div_pow]

theorem Base64.and_three (x : Nat) : x &&& 0x03 = x % 4 := by
  have h := Nat.and_pow_two_sub_one_eq_mod x 2
  norm_num at h
  exact h

theorem Base64.and_fifteen (x : Nat) : x &&& 0x0f = x % 16 := by
  have h := Nat.and_pow_two_sub_one_eq_mod x 4
  norm_num at h
  exact h

theorem Base64.and_sixtythree (x : Nat) : x &&& 0x3f = x % 64 := by
  have h := Nat.and_pow_two_sub_one_eq_mod x 6
  norm_num at h
  exact h

set_option maxRecDepth 4000 in
theorem Base64.and_fc : ∀ x, x < 256 → x &&& 0xfc = x / 4 * 4 := by decide

set_option maxRecDepth 4000 in
theorem Base64.and_f0 : ∀ x, x < 256 → x &&& 0xf0 = x / 16 * 16 := by decide

set_option maxRecDepth 4000 in
theorem Base64.and_c0 : ∀ x, x < 256 → x &&& 0xc0 = x / 64 * 64 := by decide

theorem Base64.or_mul4 {a b : Nat} (h : b < 4) : a * 4 ||| b = a * 4 + b := by
  have h' : b < 2 ^ 2 := by norm_num; omega
  rw [show a * 4 = 2 ^ 2 * a by ring]
  exact (Nat.mul_add_lt_is_or h' a).symm

theorem Base64.or_mul16 {a b : Nat} (h : b < 16) : a * 16 ||| b = a * 16 + b := by
  have h' : b < 2 ^ 4 := by norm_num; omega
  rw [show a * 16 = 2 ^ 4 * a by ring]
  exact (Nat.mul_add_lt_is_or h' a).symm

theorem Base64.or_mul64 {a b : Nat} (h : b < 64) : a * 64 ||| b = a * 64 + b := by
  have h' : b < 2 ^ 6 := by norm_num; omega
  rw [show a * 64 = 2 ^ 6 * a by ring]
  exact (Nat.mul_add_lt_is_or h' a).symm

theorem Base64.encA {x : Nat} (hx : x < 256) : (x &&& 0xfc) >>> 2 = x / 4 := by
  rw [and_fc x hx, shr2]; omega

theorem Base64.encB (x : Nat) : (x &&& 0x03) <<< 4 = x % 4 * 16 := by
  rw [and_three, shl4]

theorem Base64.encC {y : Nat} (hy : y < 256) : (y &&& 0xf0) >>> 4 = y / 16 := by
  rw [and_f0 y hy, shr4]; omega

theorem Base64.encD (y : Nat) : (y &&& 0x0f) <<< 2 = y % 16 * 4 := by
  rw [and_fifteen, shl2]

theorem Base64.encE {z : Nat} (hz : z < 256) : (z &&& 0xc0) >>> 6 = z / 64 := by
  rw [and_c0 z hz, shr6]; omega

/-- Round-trip auxiliary, by strong induction on a length bound. -/
theorem Base64.roundtrip_aux :
    ∀ n (bytes : List Nat), bytes.length ≤ n → (∀ b ∈ bytes, b < 256) →
      decodeStdBase64 (encode bytes) = some bytes := by
  intro n
  induction n with
  | zero =>
    intro bytes hlen _
    have : bytes = [] := by
      cases bytes with
      | nil => rfl
      | cons a l => simp at hlen
    subst this
    rfl
  | succ n ih =>
    intro bytes hlen hb
    rcases bytes with _ | ⟨x, _ | ⟨y, _ | ⟨z, rest⟩⟩⟩
    · rfl
    · have hx : x < 256 := hb x (by simp)
      simp only [encode, encodeLoop, encA hx, encB x]
      have l1 := char2sixbit_sixbitChar (x / 4) (by omega)
      have l2 := char2sixbit_sixbitChar (x % 4 * 16) (by omega)
      simp only [decodeStdBase64, l1, l2, PADDING, if_pos, and_self, if_true,
        reduceIte, shl2, shr4]
      rw [or_mul4 (by omega)]
      congr 1
      have : x % 4 * 16 / 16 = x % 4 := by omega
      rw [this]
      congr 1
      omega
    · have hx : x < 256 := hb x (by simp)
      have hy : y < 256 := hb y (by simp)
      simp only [encode, encodeLoop, encA hx, encB x, encC hy, encD y]
      rw [or_mul16 (show y / 16 < 16 by omega)]
      have l1 := char2sixbit_sixbitChar (x / 4) (by omega)
      have l2 := char2sixbit_sixbitChar (x % 4 * 16 + y / 16) (by omega)
      have l3 := char2sixbit_sixbitChar (y % 16 * 4) (by omega)
      have ne3 : sixbitChar (y % 16 * 4) ≠ '=' := sixbitChar_ne_padding (y % 16 * 4)
      simp only [decodeStdBase64, l1, l2, l3, PADDING, ne3, if_pos,
        reduceIte, shl2, shr4, shr2, and_fifteen, shl4]
      rw [or_mul4 (show (x % 4 * 16 + y / 16) / 16 < 4 by omega),
        or_mul16 (show y % 16 * 4 / 4 < 16 by omega)]
      have e1 : x / 4 * 4 + (x % 4 * 16 + y / 16) / 16 = x := by omega
      have e2 : (x % 4 * 16 + y / 16) % 16 * 16 + y % 16 * 4 / 4 = y := by omega
      rw [e1, e2]
    · have hx : x < 256 := hb x (by simp)
      have hy : y < 256 := hb y (by simp)
      have hz : z < 256 := hb z (by simp)
      have hrest : ∀ b ∈ rest, b < 256 := fun b h => hb b (by simp [h])
      have hlen' : rest.length ≤ n := by simp at hlen; omega
      have ihr := ih rest hlen' hrest
      simp only [encode, encodeLoop] at ihr ⊢
      rw [encA hx, encB x, encC hy, encD y, encE hz, and_sixtythree,
        or_mul16 (show y / 16 < 16 by omega), or_mul4 (show z / 64 < 4 by omega)]
      have l1 := char2sixbit_sixbitChar (x / 4) (by omega)
      have l2 := char2sixbit_sixbitChar (x % 4 * 16 + y / 16) (by omega)
      have l3 := char2sixbit_sixbitChar (y % 16 * 4 + z / 64) (by omega)
      have l4 := char2sixbit_sixbitChar (z % 64) (by omega)
      have ne3 : sixbitChar (y % 16 * 4 + z / 64) ≠ '=' :=
        sixbitChar_ne_padding (y % 16 * 4 + z / 64)
      have ne4 : sixbitChar (z % 64) ≠ '=' := sixbitChar_ne_padding (z % 64)
      simp only [decodeStdBase64, l1, l2, l3, l4, PADDING, ne3, ne4, ihr,
        shl2, shr4, shr2, shl4, shl6, and_fifteen, and_three, reduceIte]
      rw [or_mul4 (show (x % 4 * 16 + y / 16) / 16 < 4 by omega),
        or_mul16 (show (y % 16 * 4 + z / 64) / 4 < 16 by omega),
        or_mul64 (show z % 64 < 64 by omega)]
      have e1 : x / 4 * 4 + (x % 4 * 16 + y / 16) / 16 = x := by omega
      have e2 : (x % 4 * 16 + y / 16) % 16 * 16 + (y % 16 * 4 + z / 64) / 4 = y := by
        omega
      have e3 : (y % 16 * 4 + z / 64) % 4 * 64 + z % 64 = z := by omega
      rw [e1, e2, e3]
      rfl

/-- C1: for every byte sequence `b` (each entry a byte value), decoding
`encode b` with a conformant RFC 4648 standard-alphabet decoder yields `b`
exactly: `encode` produces the standard base64 encoding of `b`. -/
theorem base64_roundtrip (bytes : List Nat) (hbytes : ∀ b ∈ bytes, b < 256) :
    Base64.decodeStdBase64 (Base64.encode bytes) = some bytes :=
  Base64.roundtrip_aux bytes.length bytes le_rfl hbytes

/-- Witness for C1 at a concrete input: the test vector `[0x4D, 0x61]`. -/
theorem base64_roundtrip_witness :
    Base64.decodeStdBase64 (Base64.encode [0x4d, 0x61]) = some [0x4d, 0x61] :=
  base64_roundtrip [0x4d, 0x61] (by decide)

/-- C2: for every byte sequence `b`, `encode b` has length
`ceil (len b / 3) * 4`, and the number of `=` padding characters is `0` when
`len b % 3 = 0`, `1` when `len b % 3 = 2`, and `2` when `len b % 3 = 1`. -/
theorem encode_length_and_padding (bytes : List Nat) :
    (Base64.encode bytes).length = ((bytes.length + 2) / 3) * 4 ∧
    (Base64.encode bytes).count Base64.PADDING =
      (if bytes.length % 3 = 0 then 0 else if bytes.length % 3 = 2 then 1 else 2) := by
  constructor
  · have h := (Base64.encodeLoop_length bytes 0 0 0).1
    simpa [Base64.encode, Nat.mul_comm] using h
  · exact (Base64.encodeLoop_count bytes 0 0 0).1

/-- C5: for every 16-byte digest, the mask cell at
`(i % 5) * 3 + (2 - i / 5)` (the column-reversed fill order) holds exactly
whether the `i`-th of the first 15 nibbles (high nibble of each byte first)
is even. -/
theorem paint_mask_cells (b0 b1 b2 b3 b4 b5 b6 b7 b8 b9 b10 b11 b12 b13 b14 b15
    i : Nat) (hi : i < 15) :
    (Identicon.paint [b0, b1, b2, b3, b4, b5, b6, b7, b8, b9, b10, b11, b12,
        b13, b14, b15]).getD ((i % 5) * 3 + (2 - i / 5)) false
      = ((Identicon.nibbles [b0, b1, b2, b3, b4, b5, b6, b7, b8, b9, b10, b11,
        b12, b13, b14, b15]).getD i 0 % 2 == 0) := by
  interval_cases i <;>
    simp [Identicon.paint, Identicon.nibbles, Identicon.maskIndex,
      Identicon.NUM_SQUARES, List.enum]

/-- Witness for C5 at a concrete digest and index. -/
theorem paint_mask_cells_witness :
    (Identicon.paint [0, 1, 2, 3, 4, 5, 6, 7, 8, 9, 10, 11, 12, 13, 14,
        15]).getD ((7 % 5) * 3 + (2 - 7 / 5)) false
      = ((Identicon.nibbles [0, 1, 2, 3, 4, 5, 6, 7, 8, 9, 10, 11, 12, 13, 14,
        15]).getD 7 0 % 2 == 0) :=
  paint_mask_cells 0 1 2 3 4 5 6 7 8 9 10 11 12 13 14 15 7 (by decide)

/-- C10: the fill-order index map `maskIndex` is a bijection of
`{0, …, 14}` onto itself: every mask cell is assigned exactly once. -/
theorem maskIndex_bijective (j : Nat) (hj : j < 15) :
    ∃ i < 15, Identicon.maskIndex i = j ∧
      ∀ k < 15, Identicon.maskIndex k = j → k = i := by
  revert j
  decide

/-- Witness for C10 at the concrete cell `j = 0`. -/
theorem maskIndex_bijective_witness :
    ∃ i < 15, Identicon.maskIndex i = 0 ∧
      ∀ k < 15, Identicon.maskIndex k = 0 → k = i :=
  maskIndex_bijective 0 (by decide)

/-- C7: `HSL::new` fails with an out-of-range error carrying the field name,
offending value and maximum exactly when a field is outside its range, with
the checks in order hue, sat, lum and the first violation reported; it
succeeds at the exact boundary values and fails just past them. -/
theorem hsl_new_validation :
    (∀ h s l : ℚ, (h < 0 ∨ h > 360) →
      color.HSL.new h s l = .error (.HSLOutOfBounds "hue" h 360)) ∧
    (∀ h s l : ℚ, 0 ≤ h → h ≤ 360 → (s < 0 ∨ s > 100) →
      color.HSL.new h s l = .error (.HSLOutOfBounds "sat" s 100)) ∧
    (∀ h s l : ℚ, 0 ≤ h → h ≤ 360 → 0 ≤ s → s ≤ 100 → (l < 0 ∨ l > 100) →
      color.HSL.new h s l = .error (.HSLOutOfBounds "lum" l 100)) ∧
    (∀ h s l : ℚ, 0 ≤ h → h ≤ 360 → 0 ≤ s → s ≤ 100 → 0 ≤ l → l ≤ 100 →
      color.HSL.new h s l = .ok ⟨h, s, l⟩) ∧
    color.HSL.new 360.1 0 0 = .error (.HSLOutOfBounds "hue" 360.1 360) ∧
    color.HSL.new 0 (-0.1) 0 = .error (.HSLOutOfBounds "sat" (-0.1) 100) ∧
    color.HSL.new 0 0 100.1 = .error (.HSLOutOfBounds "lum" 100.1 100) ∧
    color.HSL.new 0 0 0 = .ok ⟨0, 0, 0⟩ ∧
    color.HSL.new 360 100 100 = .ok ⟨360, 100, 100⟩ := by
  refine ⟨?_, ?_, ?_, ?_, ?_, ?_, ?_, ?_, ?_⟩
  · intro h s l hv
    simp only [color.HSL.new, color.HUE_MAX]
    rw [if_pos hv]
  · intro h s l h1 h2 hv
    simp only [color.HSL.new, color.HUE_MAX, color.SAT_MAX]
    rw [if_neg (by push_neg; exact ⟨h1, h2⟩), if_pos hv]
  · intro h s l h1 h2 h3 h4 hv
    simp only [color.HSL.new, color.HUE_MAX, color.SAT_MAX, color.LUM_MAX]
    rw [if_neg (by push_neg; exact ⟨h1, h2⟩), if_neg (by push_neg; exact ⟨h3, h4⟩),
      if_pos hv]
  · intro h s l h1 h2 h3 h4 h5 h6
    simp only [color.HSL.new, color.HUE_MAX, color.SAT_MAX, color.LUM_MAX]
    rw [if_neg (by push_neg; exact ⟨h1, h2⟩), if_neg (by push_neg; exact ⟨h3, h4⟩),
      if_neg (by push_neg; exact ⟨h5, h6⟩)]
  · simp only [color.HSL.new, color.HUE_MAX]
    rw [if_pos (by norm_num)]
  · simp only [color.HSL.new, color.HUE_MAX, color.SAT_MAX]
    rw [if_neg (by norm_num), if_pos (by norm_num)]
  · simp only [color.HSL.new, color.HUE_MAX, color.SAT_MAX, color.LUM_MAX]
    rw [if_neg (by norm_num), if_neg (by norm_num), if_pos (by norm_num)]
  · simp only [color.HSL.new, color.HUE_MAX, color.SAT_MAX, color.LUM_MAX]
    rw [if_neg (by norm_num), if_neg (by norm_num), if_neg (by norm_num)]
  · simp only [color.HSL.new, color.HUE_MAX, color.SAT_MAX, color.LUM_MAX]
    rw [if_neg (by norm_num), if_neg (by norm_num), if_neg (by norm_num)]

/-- Witness for C7: the first-violation rule at a concrete out-of-range hue. -/
theorem hsl_new_validation_witness :
    color.HSL.new 500 (-3) 0 = .error (.HSLOutOfBounds "hue" 500 360) :=
  hsl_new_validation.1 500 (-3) 0 (by norm_num)

/-- The six-region piecewise channel formula stays within `[m, c+m] ⊆ [0,1]`
for wrapped hues. -/
theorem compute_rgb_bounds (c m h : ℚ) (hc : 0 ≤ c) (hm : 0 ≤ m)
    (hcm : c + m ≤ 1) (hl : -1 ≤ h) (_hr : h ≤ 2) :
    0 ≤ color.HSL.compute_rgb c m h ∧ color.HSL.compute_rgb c m h ≤ 1 := by
  unfold color.HSL.compute_rgb
  dsimp only
  split_ifs <;> constructor <;> nlinarith

/-- A normalized value scaled by 255 rounds into the byte range. -/
theorem round_byte_range {q : ℚ} (h0 : 0 ≤ q) (h1 : q ≤ 1) :
    0 ≤ round (q * 255) ∧ round (q * 255) ≤ 255 := by
  rw [round_eq]
  constructor
  · exact Int.le_floor.mpr (by push_cast; linarith)
  · have h : (⌊q * 255 + 1 / 2⌋ : ℤ) < 256 := Int.floor_lt.mpr (by push_cast; linarith)
    omega

/-- C8: for every valid `HSL` color, each of the three normalized channel
values computed by the HSL-to-RGB conversion lies in `[0,1]`, so multiplying
by 255 and rounding always yields a value in `[0,255]` and the byte cast in
`as_rgb` never saturates or truncates. -/
theorem as_rgb_channels_unit (hsl : color.HSL)
    (h1 : 0 ≤ hsl.hue) (h2 : hsl.hue ≤ 360) (h3 : 0 ≤ hsl.sat) (h4 : hsl.sat ≤ 100)
    (h5 : 0 ≤ hsl.lum) (h6 : hsl.lum ≤ 100) :
    (0 ≤ hsl.channels.1 ∧ hsl.channels.1 ≤ 1) ∧
    (0 ≤ hsl.channels.2.1 ∧ hsl.channels.2.1 ≤ 1) ∧
    (0 ≤ hsl.channels.2.2 ∧ hsl.channels.2.2 ≤ 1) ∧
    (0 ≤ round (hsl.channels.1 * 255) ∧ round (hsl.channels.1 * 255) ≤ 255) ∧
    (0 ≤ round (hsl.channels.2.1 * 255) ∧ round (hsl.channels.2.1 * 255) ≤ 255) ∧
    (0 ≤ round (hsl.channels.2.2 * 255) ∧ round (hsl.channels.2.2 * 255) ≤ 255) ∧
    hsl.as_rgb = ⟨(round (hsl.channels.1 * 255)).toNat,
      (round (hsl.channels.2.1 * 255)).toNat,
      (round (hsl.channels.2.2 * 255)).toNat⟩ := by
  obtain ⟨hue, sat, lum⟩ := hsl
  simp only at h1 h2 h3 h4 h5 h6
  simp only [color.HSL.channels, color.HSL.as_rgb, color.HUE_MAX, color.SAT_MAX,
    color.LUM_MAX, color.RGB_MAX]
  set L := lum / 100 with hLdef
  set S := sat / 100 with hSdef
  set Hu := hue / 360 with hHdef
  set s := if L < 1 / 2 then L else 1 - L with hsdef
  have hL0 : (0:ℚ) ≤ L := by rw [hLdef]; positivity
  have hL1 : L ≤ 1 := by rw [hLdef]; linarith
  have hS0 : (0:ℚ) ≤ S := by rw [hSdef]; positivity
  have hS1 : S ≤ 1 := by rw [hSdef]; linarith
  have hH0 : (0:ℚ) ≤ Hu := by rw [hHdef]; positivity
  have hH1 : Hu ≤ 1 := by rw [hHdef]; linarith
  have hs0 : 0 ≤ s := by rw [hsdef]; split_ifs <;> linarith
  have hsL : s ≤ L := by rw [hsdef]; split_ifs <;> linarith
  have hs1L : s ≤ 1 - L := by rw [hsdef]; split_ifs <;> linarith
  have hc : (0:ℚ) ≤ 2 * s * S := by positivity
  have hm : (0:ℚ) ≤ L - 2 * s * S / 2 := by nlinarith
  have hcm : 2 * s * S + (L - 2 * s * S / 2) ≤ 1 := by nlinarith
  have B1 := compute_rgb_bounds (2 * s * S) (L - 2 * s * S / 2) (Hu + 1 / 3)
    hc hm hcm (by linarith) (by linarith)
  have B2 := compute_rgb_bounds (2 * s * S) (L - 2 * s * S / 2) Hu
    hc hm hcm (by linarith) (by linarith)
  have B3 := compute_rgb_bounds (2 * s * S) (L - 2 * s * S / 2) (Hu - 1 / 3)
    hc hm hcm (by linarith) (by linarith)
  have R1 := round_byte_range B1.1 B1.2
  have R2 := round_byte_range B2.1 B2.2
  have R3 := round_byte_range B3.1 B3.2
  refine ⟨B1, B2, B3, R1, R2, R3, ?_⟩
  have collapse : ∀ q : ℚ, 0 ≤ round q → round q ≤ 255 → floatToByte q = (round q).toNat := by
    intro q a b
    unfold floatToByte
    congr 1
    omega
  rw [collapse _ R1.1 R1.2, collapse _ R2.1 R2.2, collapse _ R3.1 R3.2]

/-- Witness for C8 at the concrete color `HSL(120, 100, 50)`. -/
theorem as_rgb_channels_unit_witness :
    0 ≤ (color.HSL.mk 120 100 50).channels.1 ∧ (color.HSL.mk 120 100 50).channels.1 ≤ 1 :=
  (as_rgb_channels_unit ⟨120, 100, 50⟩ (by decide) (by decide) (by decide)
    (by decide) (by decide) (by decide)).1

theorem shl8 (a : Nat) : a <<< 8 = a * 256 := by rw [Nat.shiftLeft_eq]

theorem or_mul256 {a b : Nat} (h : b < 256) : a * 256 ||| b = a * 256 + b := by
  have h' : b < 2 ^ 8 := by norm_num; omega
  rw [show a * 256 = 2 ^ 8 * a by ring]
  exact (Nat.mul_add_lt_is_or h' a).symm

theorem hueRaw_eq {b12 b13 : Nat} (h13 : b13 < 256) :
    ((b12 &&& 0x0f) <<< 8) ||| b13 = b12 % 16 * 256 + b13 := by
  rw [Base64.and_fifteen, shl8, or_mul256 h13]

/-- `HSL::new` succeeds on in-range inputs (helper shared by several claims). -/
theorem hsl_new_ok (h s l : ℚ) (h1 : 0 ≤ h) (h2 : h ≤ 360) (h3 : 0 ≤ s)
    (h4 : s ≤ 100) (h5 : 0 ≤ l) (h6 : l ≤ 100) :
    color.HSL.new h s l = .ok ⟨h, s, l⟩ := by
  simp only [color.HSL.new, color.HUE_MAX, color.SAT_MAX, color.LUM_MAX]
  rw [if_neg (by push_neg; exact ⟨h1, h2⟩), if_neg (by push_neg; exact ⟨h3, h4⟩),
    if_neg (by push_neg; exact ⟨h5, h6⟩)]

theorem map_hue_bounds {q : ℚ} (h0 : 0 ≤ q) (h1 : q ≤ 4095) :
    0 ≤ Identicon.map q 0 4095 0 color.HUE_MAX ∧
      Identicon.map q 0 4095 0 color.HUE_MAX ≤ 360 := by
  unfold Identicon.map color.HUE_MAX
  constructor <;> linarith

theorem map_sat_bounds {q : ℚ} (h0 : 0 ≤ q) (h1 : q ≤ 255) :
    45 ≤ Identicon.map q 0 255 Identicon.SAT_MAX Identicon.SAT_MIN ∧
      Identicon.map q 0 255 Identicon.SAT_MAX Identicon.SAT_MIN ≤ 65 := by
  unfold Identicon.map Identicon.SAT_MAX Identicon.SAT_MIN
  constructor <;> linarith

theorem map_lum_bounds {q : ℚ} (h0 : 0 ≤ q) (h1 : q ≤ 255) :
    55 ≤ Identicon.map q 0 255 Identicon.LUM_MAX Identicon.LUM_MIN ∧
      Identicon.map q 0 255 Identicon.LUM_MAX Identicon.LUM_MIN ≤ 75 := by
  unfold Identicon.map Identicon.LUM_MAX Identicon.LUM_MIN
  constructor <;> linarith

/-- C3: for every 16-byte digest, the foreground derivation forms
`hueRaw = (byte12 & 0x0F) << 8 | byte13`, `satRaw = byte14`, `lumRaw = byte15`
and produces `hue = map(hueRaw,0,4095,0,360)`, `sat = map(satRaw,0,255,65,45)`,
`lum = map(lumRaw,0,255,75,55)`; the foreground is the RGB conversion of that
HSL triple. -/
theorem compute_fg_formula (b0 b1 b2 b3 b4 b5 b6 b7 b8 b9 b10 b11 b12 b13 b14 b15 : Nat)
    (h13 : b13 < 256) (h14 : b14 < 256) (h15 : b15 < 256) :
    Identicon.compute_fg [b0, b1, b2, b3, b4, b5, b6, b7, b8, b9, b10, b11, b12, b13, b14, b15] =
      Except.ok (color.HSL.as_rgb
        ⟨Identicon.map ((((b12 &&& 0x0f) <<< 8) ||| b13 : Nat) : ℚ) 0 4095 0 360,
         Identicon.map (b14 : ℚ) 0 255 65 45,
         Identicon.map (b15 : ℚ) 0 255 75 55⟩) := by
  have hraw : ((b12 &&& 0x0f) <<< 8) ||| b13 = b12 % 16 * 256 + b13 := hueRaw_eq h13
  have hq0 : (0:ℚ) ≤ ((((b12 &&& 0x0f) <<< 8) ||| b13 : Nat) : ℚ) := by positivity
  have hq1 : ((((b12 &&& 0x0f) <<< 8) ||| b13 : Nat) : ℚ) ≤ 4095 := by
    have hn : b12 % 16 * 256 + b13 ≤ 4095 := by omega
    rw [hraw]
    exact_mod_cast hn
  have hs0 : (0:ℚ) ≤ (b14 : ℚ) := by positivity
  have hs1 : (b14 : ℚ) ≤ 255 := by exact_mod_cast Nat.le_of_lt_succ h14
  have hl0 : (0:ℚ) ≤ (b15 : ℚ) := by positivity
  have hl1 : (b15 : ℚ) ≤ 255 := by exact_mod_cast Nat.le_of_lt_succ h15
  have H := map_hue_bounds hq0 hq1
  have S := map_sat_bounds hs0 hs1
  have L := map_lum_bounds hl0 hl1
  simp only [Identicon.compute_fg, Identicon.fgHSL, List.getD_cons_succ, List.getD_cons_zero]
  rw [hsl_new_ok _ _ _ H.1 H.2 (by linarith [S.1]) (by linarith [S.2])
    (by linarith [L.1]) (by linarith [L.2])]
  simp only [Except.map, color.HUE_MAX, Identicon.SAT_MAX, Identicon.SAT_MIN,
    Identicon.LUM_MAX, Identicon.LUM_MIN]

/-- C4: for every 16-byte digest the derived hue lies in `[0,360]`, sat in
`[45,65]` and lum in `[55,75]` (hence within `[0,100]`), so the
`HSLOutOfRange` branch is unreachable and `compute_fg` always returns `Ok`. -/
theorem compute_fg_in_range (b0 b1 b2 b3 b4 b5 b6 b7 b8 b9 b10 b11 b12 b13 b14 b15 : Nat)
    (h13 : b13 < 256) (h14 : b14 < 256) (h15 : b15 < 256) :
    (0 ≤ (Identicon.fgHSL [b0, b1, b2, b3, b4, b5, b6, b7, b8, b9, b10, b11, b12,
        b13, b14, b15]).1 ∧
      (Identicon.fgHSL [b0, b1, b2, b3, b4, b5, b6, b7, b8, b9, b10, b11, b12,
        b13, b14, b15]).1 ≤ 360) ∧
    (45 ≤ (Identicon.fgHSL [b0, b1, b2, b3, b4, b5, b6, b7, b8, b9, b10, b11, b12,
        b13, b14, b15]).2.1 ∧
      (Identicon.fgHSL [b0, b1, b2, b3, b4, b5, b6, b7, b8, b9, b10, b11, b12,
        b13, b14, b15]).2.1 ≤ 65) ∧
    (55 ≤ (Identicon.fgHSL [b0, b1, b2, b3, b4, b5, b6, b7, b8, b9, b10, b11, b12,
        b13, b14, b15]).2.2 ∧
      (Identicon.fgHSL [b0, b1, b2, b3, b4, b5, b6, b7, b8, b9, b10, b11, b12,
        b13, b14, b15]).2.2 ≤ 75) ∧
    ∃ rgb, Identicon.compute_fg [b0, b1, b2, b3, b4, b5, b6, b7, b8, b9, b10, b11,
      b12, b13, b14, b15] = Except.ok rgb := by
  have hraw : ((b12 &&& 0x0f) <<< 8) ||| b13 = b12 % 16 * 256 + b13 := hueRaw_eq h13
  have hq0 : (0:ℚ) ≤ ((((b12 &&& 0x0f) <<< 8) ||| b13 : Nat) : ℚ) := by positivity
  have hq1 : ((((b12 &&& 0x0f) <<< 8) ||| b13 : Nat) : ℚ) ≤ 4095 := by
    have hn : b12 % 16 * 256 + b13 ≤ 4095 := by omega
    rw [hraw]
    exact_mod_cast hn
  have hs0 : (0:ℚ) ≤ (b14 : ℚ) := by positivity
  have hs1 : (b14 : ℚ) ≤ 255 := by exact_mod_cast Nat.le_of_lt_succ h14
  have hl0 : (0:ℚ) ≤ (b15 : ℚ) := by positivity
  have hl1 : (b15 : ℚ) ≤ 255 := by exact_mod_cast Nat.le_of_lt_succ h15
  have H := map_hue_bounds hq0 hq1
  have S := map_sat_bounds hs0 hs1
  have L := map_lum_bounds hl0 hl1
  simp only [Identicon.fgHSL, Identicon.compute_fg, List.getD_cons_succ, List.getD_cons_zero]
  refine ⟨⟨H.1, H.2⟩, ⟨S.1, S.2⟩, ⟨L.1, L.2⟩, ?_⟩
  rw [hsl_new_ok _ _ _ H.1 H.2 (by linarith [S.1]) (by linarith [S.2])
    (by linarith [L.1]) (by linarith [L.2])]
  exact ⟨_, rfl⟩

/-- Witness for C3 at the all-zero digest. -/
theorem compute_fg_formula_witness :
    Identicon.compute_fg [0, 0, 0, 0, 0, 0, 0, 0, 0, 0, 0, 0, 0, 0, 0, 0] =
      Except.ok (color.HSL.as_rgb
        ⟨Identicon.map ((((0 &&& 0x0f) <<< 8) ||| 0 : Nat) : ℚ) 0 4095 0 360,
         Identicon.map ((0 : Nat) : ℚ) 0 255 65 45,
         Identicon.map ((0 : Nat) : ℚ) 0 255 75 55⟩) :=
  compute_fg_formula 0 0 0 0 0 0 0 0 0 0 0 0 0 0 0 0 (by decide) (by decide) (by decide)

/-- Witness for C4 at a concrete digest. -/
theorem compute_fg_in_range_witness :
    ∃ rgb, Identicon.compute_fg [1, 2, 3, 4, 5, 6, 7, 8, 9, 10, 11, 12, 13, 14,
      15, 16] = Except.ok rgb :=
  (compute_fg_in_range 1 2 3 4 5 6 7 8 9 10 11 12 13 14 15 16
    (by decide) (by decide) (by decide)).2.2.2

/-- Counterexample to C9 as stated: `0` is accepted by the CLI size
validator, and `0` is not strictly positive. -/
theorem sizeAccepted_zero : Cli.sizeAccepted 0 = true ∧ ¬ 0 < 0 :=
  ⟨rfl, by omega⟩

/-- C9 (amended): every size accepted by the CLI validator is strictly below
`613566757`, hence `size * 7` stays below `2^32` and the buffer side
computation in `image()` cannot overflow `u32`. -/
theorem sizeAccepted_no_overflow (n : Nat) (h : Cli.sizeAccepted n = true) :
    n < 613566757 ∧ n * 7 < 2 ^ 32 := by
  simp only [Cli.sizeAccepted, decide_eq_true_eq] at h
  omega

/-- Witness for the amended C9 at the default size `60`. -/
theorem sizeAccepted_no_overflow_witness : 60 < 613566757 ∧ 60 * 7 < 2 ^ 32 :=
  sizeAccepted_no_overflow 60 (by decide)

/-- Inner `for y` loop of `image`: paints column `px` and its mirror `qx`. -/
theorem yfold_apply (fg : color.RGB) (px qx a b : Nat) :
    ∀ (len s : Nat) (img : Nat → Nat → color.RGB),
      ((List.range' s len).foldl
        (fun im y => putPixel (putPixel im px y fg) qx y fg) img) a b
      = if (a = px ∨ a = qx) ∧ s ≤ b ∧ b < s + len then fg else img a b := by
  intro len
  induction len with
  | zero => intro s img; rw [if_neg (by omega)]; simp
  | succ n ihn =>
    intro s img
    rw [List.range'_succ, List.foldl_cons, ihn]
    by_cases h1 : (a = px ∨ a = qx) ∧ s + 1 ≤ b ∧ b < s + 1 + n
    · rw [if_pos h1, if_pos (by omega)]
    · rw [if_neg h1]
      simp only [putPixel]
      by_cases h2 : a = qx ∧ b = s
      · rw [if_pos h2, if_pos (by omega)]
      · rw [if_neg h2]
        by_cases h3 : a = px ∧ b = s
        · rw [if_pos h3, if_pos (by omega)]
        · rw [if_neg h3, if_neg (by omega)]

/-- `for x` loop of `image`: one block of columns together with its mirror. -/
theorem xfold_apply (fg : color.RGB) (size rs slen a b : Nat) (ha : a < size) :
    ∀ (len cs : Nat) (img : Nat → Nat → color.RGB), cs + len ≤ size →
      ((List.range' cs len).foldl
        (fun im x => (List.range' rs slen).foldl
          (fun im2 y => putPixel (putPixel im2 x y fg) (size - 1 - x) y fg) im) img) a b
      = if (cs ≤ a ∧ a < cs + len ∨ cs ≤ size - 1 - a ∧ size - 1 - a < cs + len) ∧
            rs ≤ b ∧ b < rs + slen then fg else img a b := by
  intro len
  induction len with
  | zero => intro cs img _; rw [if_neg (by omega)]; simp
  | succ n ihn =>
    intro cs img hcs
    rw [List.range'_succ, List.foldl_cons, ihn (cs + 1) _ (by omega), yfold_apply]
    by_cases h1 : (cs + 1 ≤ a ∧ a < cs + 1 + n ∨
        cs + 1 ≤ size - 1 - a ∧ size - 1 - a < cs + 1 + n) ∧ rs ≤ b ∧ b < rs + slen
    · rw [if_pos h1, if_pos (by omega)]
    · rw [if_neg h1]
      by_cases h2 : (a = cs ∨ a = size - 1 - cs) ∧ rs ≤ b ∧ b < rs + slen
      · rw [if_pos h2, if_pos (by omega)]
      · rw [if_neg h2, if_neg (by omega)]

/-- A fold whose body ignores the list elements is the identity. -/
theorem foldl_id {T : Type} (l : List Nat) (img : T) :
    l.foldl (fun im _ => im) img = img := by
  induction l generalizing img with
  | nil => rfl
  | cons a l ih => rw [List.foldl_cons]; exact ih img

/-- The `if paint` guard hoisted out of the double pixel loop. -/
theorem cellstep_if (fg : color.RGB) (sz : Nat) (p : Nat × Bool)
    (img : Nat → Nat → color.RGB) :
    ((List.range' ((1 + p.1 % 3) * sz) sz).foldl
      (fun im x => (List.range' ((1 + p.1 / 3) * sz) sz).foldl
        (fun im2 y => if p.2 = true then
          putPixel (putPixel im2 x y fg) (sz * 7 - 1 - x) y fg else im2) im) img)
    = if p.2 = true then
        ((List.range' ((1 + p.1 % 3) * sz) sz).foldl
          (fun im x => (List.range' ((1 + p.1 / 3) * sz) sz).foldl
            (fun im2 y => putPixel (putPixel im2 x y fg) (sz * 7 - 1 - x) y fg) im) img)
      else img := by
  cases hp : p.2 <;> simp [hp, foldl_id]

/-- The enumerated fold over the mask entries paints exactly the cells (and
mirrors) of the `true` entries. -/
theorem cellsfold_apply (fg : color.RGB) (sz a b : Nat) (ha : a < sz * 7) :
    ∀ (l : List Bool) (k : Nat) (img : Nat → Nat → color.RGB),
      ((l.enumFrom k).foldl
        (fun img p =>
          (List.range' ((1 + p.1 % 3) * sz) sz).foldl
            (fun im x =>
              (List.range' ((1 + p.1 / 3) * sz) sz).foldl
                (fun im2 y =>
                  if p.2 = true then
                    putPixel (putPixel im2 x y fg) (sz * 7 - 1 - x) y fg
                  else im2) im) img) img) a b
      = if (∃ j, j < l.length ∧ l.getD j false = true ∧
            ((1 + (k + j) % 3) * sz ≤ a ∧ a < (1 + (k + j) % 3) * sz + sz ∨
             (1 + (k + j) % 3) * sz ≤ sz * 7 - 1 - a ∧
               sz * 7 - 1 - a < (1 + (k + j) % 3) * sz + sz) ∧
            (1 + (k + j) / 3) * sz ≤ b ∧ b < (1 + (k + j) / 3) * sz + sz)
        then fg else img a b := by
  intro l
  induction l with
  | nil =>
    intro k img
    rw [if_neg (by rintro ⟨j, hj, -⟩; simp at hj)]
    rfl
  | cons paint l ih =>
    intro k img
    rw [List.enumFrom_cons, List.foldl_cons, ih (k + 1)]
    have hstep := cellstep_if fg sz (k, paint) img
    dsimp only at hstep ⊢
    rw [hstep]
    have harg : (1 + k % 3) * sz + sz ≤ sz * 7 := by
      have h1 : (1 + k % 3) * sz ≤ 3 * sz := Nat.mul_le_mul_right sz (by omega)
      omega
    cases paint with
    | true =>
      rw [if_pos rfl,
        xfold_apply fg (sz * 7) ((1 + k / 3) * sz) sz a b ha sz ((1 + k % 3) * sz) img harg]
      by_cases h1 : (∃ j, j < l.length ∧ l.getD j false = true ∧
          ((1 + (k + 1 + j) % 3) * sz ≤ a ∧ a < (1 + (k + 1 + j) % 3) * sz + sz ∨
           (1 + (k + 1 + j) % 3) * sz ≤ sz * 7 - 1 - a ∧
             sz * 7 - 1 - a < (1 + (k + 1 + j) % 3) * sz + sz) ∧
          (1 + (k + 1 + j) / 3) * sz ≤ b ∧ b < (1 + (k + 1 + j) / 3) * sz + sz)
      · rw [if_pos h1]
        obtain ⟨j, hj, hget, hcond⟩ := h1
        rw [if_pos ⟨j + 1, by simp; omega, by simpa using hget, by
          rw [show k + (j + 1) = k + 1 + j by omega]; exact hcond⟩]
      · rw [if_neg h1]
        by_cases h2 : ((1 + k % 3) * sz ≤ a ∧ a < (1 + k % 3) * sz + sz ∨
            (1 + k % 3) * sz ≤ sz * 7 - 1 - a ∧ sz * 7 - 1 - a < (1 + k % 3) * sz + sz) ∧
            (1 + k / 3) * sz ≤ b ∧ b < (1 + k / 3) * sz + sz
        · rw [if_pos h2, if_pos ⟨0, by simp, by simp, by simpa using h2⟩]
        · rw [if_neg h2, if_neg ?_]
          rintro ⟨j, hj, hget, hcond⟩
          match j with
          | 0 => exact h2 (by simpa using hcond)
          | j' + 1 =>
            exact h1 ⟨j', by simp at hj; omega, by simpa using hget, by
              rw [show k + 1 + j' = k + (j' + 1) by omega]; exact hcond⟩
    | false =>
      rw [if_neg (show ¬(false = true) by simp)]
      by_cases h1 : (∃ j, j < l.length ∧ l.getD j false = true ∧
          ((1 + (k + 1 + j) % 3) * sz ≤ a ∧ a < (1 + (k + 1 + j) % 3) * sz + sz ∨
           (1 + (k + 1 + j) % 3) * sz ≤ sz * 7 - 1 - a ∧
             sz * 7 - 1 - a < (1 + (k + 1 + j) % 3) * sz + sz) ∧
          (1 + (k + 1 + j) / 3) * sz ≤ b ∧ b < (1 + (k + 1 + j) / 3) * sz + sz)
      · rw [if_pos h1]
        obtain ⟨j, hj, hget, hcond⟩ := h1
        rw [if_pos ⟨j + 1, by simp; omega, by simpa using hget, by
          rw [show k + (j + 1) = k + 1 + j by omega]; exact hcond⟩]
      · rw [if_neg h1, if_neg ?_]
        rintro ⟨j, hj, hget, hcond⟩
        match j with
        | 0 => simp at hget
        | j' + 1 =>
          exact h1 ⟨j', by simp at hj; omega, by simpa using hget, by
            rw [show k + 1 + j' = k + (j' + 1) by omega]; exact hcond⟩

/-- C6: in the composited `size*7` square buffer, a pixel `(x, y)` equals the
foreground exactly when some true mask entry `i` (with `blockCol = 1 + i % 3`,
`blockRow = 1 + i / 3`) covers it directly or through its horizontal mirror
`(side-1-x, y)`; every other pixel equals the background. -/
theorem image_pixel_characterization (ic : Identicon) (_hp : ic.paints.length = 15)
    (x y : Nat) (hx : x < ic.size * 7) (_hy : y < ic.size * 7) :
    Identicon.image ic x y =
      if ∃ i, i < ic.paints.length ∧ ic.paints.getD i false = true ∧
          ((1 + i % 3) * ic.size ≤ x ∧ x < (1 + i % 3) * ic.size + ic.size ∨
           (1 + i % 3) * ic.size ≤ ic.size * 7 - 1 - x ∧
             ic.size * 7 - 1 - x < (1 + i % 3) * ic.size + ic.size) ∧
          (1 + i / 3) * ic.size ≤ y ∧ y < (1 + i / 3) * ic.size + ic.size
      then ic.foreground else ic.background := by
  simp only [Identicon.image, Identicon.NUM_SQUARES, List.enum, Nat.reduceDiv]
  rw [cellsfold_apply ic.foreground ic.size x y hx ic.paints 0
    (fun _ _ => ic.background)]
  simp only [Nat.zero_add]

/-- Witness for C6 at a concrete identicon and pixel. -/
theorem image_pixel_characterization_witness :
    Identicon.image ⟨[true, false, true, false, true, false, true, false, true,
        false, true, false, true, false, true], 1, ⟨9, 9, 9⟩, ⟨0, 0, 0⟩⟩ 1 1 =
      if ∃ i, i < ([true, false, true, false, true, false, true, false, true,
          false, true, false, true, false, true] : List Bool).length ∧
          ([true, false, true, false, true, false, true, false, true,
            false, true, false, true, false, true] : List Bool).getD i false = true ∧
          ((1 + i % 3) * 1 ≤ 1 ∧ 1 < (1 + i % 3) * 1 + 1 ∨
           (1 + i % 3) * 1 ≤ 1 * 7 - 1 - 1 ∧ 1 * 7 - 1 - 1 < (1 + i % 3) * 1 + 1) ∧
          (1 + i / 3) * 1 ≤ 1 ∧ 1 < (1 + i / 3) * 1 + 1
      then (⟨9, 9, 9⟩ : color.RGB) else ⟨0, 0, 0⟩ :=
  image_pixel_characterization ⟨[true, false, true, false, true, false, true,
    false, true, false, true, false, true, false, true], 1, ⟨9, 9, 9⟩, ⟨0, 0, 0⟩⟩
    (by decide) 1 1 (by decide) (by decide)
